import Mathlib

/-!
Verification development for the radar quality-control pipeline
(radarQualityControl.py): phase unfolding, DROPs rain-cell masking,
LP-based phase reconstruction, and Z-PHI attenuation correction.

Numeric model: the Python floats are embedded as exact rationals where the
source only performs field operations and comparisons, and as real numbers
where the source uses transcendental functions (cos, sin, exp, rpow).
-/

/-! ## Linear-programming reconstruction engine (LP_solver, lines 171-208)

The pulp problem built by LP_solver has decision variables
z_0..z_{n-1}, x_0..x_{n-1}; we embed the constraint set and objective
directly.  The solver itself is external (CBC); claims quantify over any
(x, z) that is feasible / optimal for the embedded program. -/

/-- Five-point Savitzky-Golay derivative stencil used in the monotonicity
constraints of LP_solver (line 190). -/
def sgDeriv (x : ℕ → ℚ) (j : ℕ) : ℚ :=
  -0.2 * x (j - 2) + -0.1 * x (j - 1) + 0.1 * x (j + 1) + 0.2 * x (j + 2)

/-- Feasible set of LP_solver's linear program: fidelity constraints
z_i - x_i >= -phi_i and z_i + x_i >= phi_i for all gates (lines 184-187),
and Savitzky-Golay monotonicity constraints on interior gates
2 <= j <= n-3 (line 189-190, var indices n+2 .. 2n-3). -/
def lpFeasible (phi x z : ℕ → ℚ) (n : ℕ) : Prop :=
  (∀ i, i < n → z i - x i ≥ -(phi i)) ∧
  (∀ i, i < n → z i + x i ≥ phi i) ∧
  (∀ j, j < n → 2 ≤ j → j + 3 ≤ n → sgDeriv x j ≥ 0)

/-- Objective of LP_solver: sum of the slack variables z_0..z_{n-1}
(line 182 sums the first num_gate variables, which are the z block). -/
def lpObjective (z : ℕ → ℚ) (n : ℕ) : ℚ :=
  Finset.sum (Finset.range n) z

/-- (x, z) solves LP_solver's program to optimality. -/
def lpOptimal (phi : ℕ → ℚ) (n : ℕ) (x z : ℕ → ℚ) : Prop :=
  lpFeasible phi x z n ∧
  ∀ x2 z2, lpFeasible phi x2 z2 n → lpObjective z n ≤ lpObjective z2 n

/-- The 5-tap smoothing filter LP_solver applies to the recovered x block:
gates 2..n-3 receive the [0.1, 0.25, 0.3, 0.25, 0.1] kernel of phi_rec,
all other gates still hold the original phi value (lines 201-202). -/
def lpSmooth (phi x : ℕ → ℚ) (n i : ℕ) : ℚ :=
  if 2 ≤ i ∧ i + 2 < n then
    0.1 * x (i - 2) + 0.25 * x (i - 1) + 0.3 * x i + 0.25 * x (i + 1) + 0.1 * x (i + 2)
  else phi i

/-- Final output of LP_solver on a successful solve: the smoothed array with
the last two gates overwritten by the (just smoothed) value at gate n-3
(lines 203-204). -/
def LP_solver_output (phi x : ℕ → ℚ) (n i : ℕ) : ℚ :=
  if i + 2 = n ∨ i + 1 = n then lpSmooth phi x n (n - 3) else lpSmooth phi x n i

/-- A linear ramp phase profile: gate i holds a + s * i. -/
def ramp (a s : ℚ) : ℕ → ℚ := fun i => a + s * i

lemma lp_z_nonneg (phi x z : ℕ → ℚ) (n : ℕ) (hf : lpFeasible phi x z n) :
    ∀ i, i < n → 0 ≤ z i := by
  intro i hi
  have h1 := hf.1 i hi
  have h2 := hf.2.1 i hi
  linarith

lemma lp_obj_nonneg (phi x z : ℕ → ℚ) (n : ℕ) (hf : lpFeasible phi x z n) :
    0 ≤ lpObjective z n := by
  refine Finset.sum_nonneg ?_
  intro i hi
  exact lp_z_nonneg phi x z n hf i (Finset.mem_range.mp hi)

/-- If phi itself satisfies the monotonicity constraints then (x, z) = (phi, 0)
is an optimal solution of LP_solver's program. -/
lemma lpOptimal_self (phi : ℕ → ℚ) (n : ℕ)
    (hf : lpFeasible phi phi (fun _ => 0) n) :
    lpOptimal phi n phi (fun _ => 0) := by
  refine ⟨hf, ?_⟩
  intro x2 z2 h2
  have : lpObjective (fun _ => 0) n = 0 := Finset.sum_const_zero
  rw [this]
  exact lp_obj_nonneg phi x2 z2 n h2

/-- At any optimum, all slacks vanish and the reconstruction x coincides with
phi on every gate, provided phi is itself feasible with zero slack. -/
lemma lp_opt_x_eq (phi : ℕ → ℚ) (n : ℕ) (x z : ℕ → ℚ)
    (hopt : lpOptimal phi n x z)
    (hself : lpFeasible phi phi (fun _ => 0) n) :
    ∀ i, i < n → x i = phi i := by
  have hle : lpObjective z n ≤ 0 := by
    have := hopt.2 phi (fun _ => 0) hself
    simpa [lpObjective] using this
  have hge : 0 ≤ lpObjective z n := lp_obj_nonneg phi x z n hopt.1
  have hzero : lpObjective z n = 0 := le_antisymm hle hge
  have hz : ∀ i ∈ Finset.range n, z i = 0 := by
    rw [lpObjective] at hzero
    intro i hi
    exact (Finset.sum_eq_zero_iff_of_nonneg
      (fun j hj => lp_z_nonneg phi x z n hopt.1 j (Finset.mem_range.mp hj))).mp hzero i hi
  intro i hi
  have hzi : z i = 0 := hz i (Finset.mem_range.mpr hi)
  have h1 := hopt.1.1 i hi
  have h2 := hopt.1.2.1 i hi
  rw [hzi] at h1 h2
  linarith

/-- A non-decreasing ramp is feasible with zero slack: the SG stencil of a
linear ramp evaluates to exactly the slope s. -/
lemma ramp_feasible (a s : ℚ) (hs : 0 ≤ s) (n : ℕ) :
    lpFeasible (ramp a s) (ramp a s) (fun _ => 0) n := by
  refine ⟨?_, ?_, ?_⟩
  · intro i _; simp [ramp]
  · intro i _; simp [ramp]
  · intro j _ h2 _
    obtain ⟨k, rfl⟩ : ∃ k, j = k + 2 := ⟨j - 2, by omega⟩
    have e1 : k + 2 - 2 = k := by omega
    have e2 : k + 2 - 1 = k + 1 := by omega
    have hval : sgDeriv (ramp a s) (k + 2) = s := by
      rw [sgDeriv, e1, e2, ramp]
      simp only [ramp]
      push_cast
      ring
    rw [hval]
    exact hs

/-- Evaluating the smoothing kernel on a ramp reproduces the ramp value:
the kernel is symmetric and its weights sum to 1. -/
lemma lpSmooth_ramp (a s : ℚ) (x : ℕ → ℚ) (n k : ℕ)
    (hx : ∀ i, i < n → x i = ramp a s i) (hk : k + 4 < n) :
    lpSmooth (ramp a s) x n (k + 2) = ramp a s (k + 2) := by
  rw [lpSmooth, if_pos (by omega : 2 ≤ k + 2 ∧ k + 2 + 2 < n)]
  have e1 : k + 2 - 2 = k := by omega
  have e2 : k + 2 - 1 = k + 1 := by omega
  rw [e1, e2, hx k (by omega), hx (k + 1) (by omega), hx (k + 2) (by omega),
    hx (k + 2 + 1) (by omega), hx (k + 2 + 2) (by omega)]
  simp only [ramp]
  push_cast
  ring

/-- C1: for every phase input on which LP_solver's linear program is solved
with all constraints satisfied, the returned reconstruction after the 5-tap
smoothing filter has non-negative first differences at every interior gate:
LP_solver_output (i+1) - LP_solver_output i >= 0 for all 2 <= i <= n-2.
(The interior first difference of the filtered profile equals the average of
two adjacent Savitzky-Golay monotonicity constraints.) -/
theorem C1_lp_output_monotone (phi x z : ℕ → ℚ) (n : ℕ) (hn : 5 ≤ n)
    (hf : lpFeasible phi x z n) (i : ℕ) (h2 : 2 ≤ i) (hi : i + 2 ≤ n) :
    LP_solver_output phi x n i ≤ LP_solver_output phi x n (i + 1) := by
  obtain ⟨-, -, hm⟩ := hf
  rcases (by omega : i + 4 ≤ n ∨ i + 3 = n ∨ i + 2 = n) with hc | hc | hc
  · obtain ⟨k, rfl⟩ : ∃ k, i = k + 2 := ⟨i - 2, by omega⟩
    have g1 := hm (k + 2) (by omega) (by omega) (by omega)
    have g2 := hm (k + 3) (by omega) (by omega) (by omega)
    rw [sgDeriv] at g1 g2
    have e1 : k + 2 - 2 = k := by omega
    have e2 : k + 2 - 1 = k + 1 := by omega
    have e3 : k + 3 - 2 = k + 1 := by omega
    have e4 : k + 3 - 1 = k + 2 := by omega
    rw [e1, e2] at g1
    rw [e3, e4] at g2
    rw [LP_solver_output, if_neg (by omega), LP_solver_output, if_neg (by omega)]
    have hs1 : lpSmooth phi x n (k + 2) =
        0.1 * x k + 0.25 * x (k + 1) + 0.3 * x (k + 2) + 0.25 * x (k + 3) + 0.1 * x (k + 4) := by
      rw [lpSmooth, if_pos (by omega : 2 ≤ k + 2 ∧ k + 2 + 2 < n), e1, e2]
    have hs2 : lpSmooth phi x n (k + 2 + 1) =
        0.1 * x (k + 1) + 0.25 * x (k + 2) + 0.3 * x (k + 3) + 0.25 * x (k + 4) + 0.1 * x (k + 5) := by
      rw [lpSmooth, if_pos (by omega : 2 ≤ k + 2 + 1 ∧ k + 2 + 1 + 2 < n), e3, e4]
    rw [hs1, hs2]
    linarith
  · have hl : LP_solver_output phi x n i = lpSmooth phi x n (n - 3) := by
      rw [LP_solver_output, if_neg (by omega)]
      congr 1
      omega
    have hr : LP_solver_output phi x n (i + 1) = lpSmooth phi x n (n - 3) := by
      rw [LP_solver_output, if_pos (by omega)]
    rw [hl, hr]
  · have hl : LP_solver_output phi x n i = lpSmooth phi x n (n - 3) := by
      rw [LP_solver_output, if_pos (by omega)]
    have hr : LP_solver_output phi x n (i + 1) = lpSmooth phi x n (n - 3) := by
      rw [LP_solver_output, if_pos (by omega)]
    rw [hl, hr]

/-- Witness for C1 at a concrete feasible point: the identity ramp on 7 gates. -/
theorem C1_lp_output_monotone_witness :
    lpFeasible (fun i => (i : ℚ)) (fun i => (i : ℚ)) (fun _ => 0) 7 ∧
      LP_solver_output (fun i => (i : ℚ)) (fun i => (i : ℚ)) 7 3 ≤
        LP_solver_output (fun i => (i : ℚ)) (fun i => (i : ℚ)) 7 4 := by
  have hf : lpFeasible (fun i => (i : ℚ)) (fun i => (i : ℚ)) (fun _ => 0) 7 := by
    refine ⟨?_, ?_, ?_⟩
    · intro i _; norm_num
    · intro i _; norm_num
    · intro j hj h2 h3
      interval_cases j <;> norm_num [sgDeriv]
  exact ⟨hf, C1_lp_output_monotone (fun i => (i : ℚ)) (fun i => (i : ℚ)) (fun _ => 0) 7
    (by norm_num) hf 3 (by norm_num) (by norm_num)⟩

/-- On the noise-free strictly monotone ramp phi i = i over 7 gates, the
unique LP optimum is x = phi, yet the value LP_solver returns at gate 5
(= n-2) is the smoothed value of gate 4, i.e. 4, not the ramp value 5: the
LP engine does not reproduce the ramp at every gate of the cell. -/
lemma lp_ramp_tail_not_reproduced :
    ¬ (∀ x z : ℕ → ℚ, lpOptimal (ramp 0 1) 7 x z →
        ∀ i, i < 7 → LP_solver_output (ramp 0 1) x 7 i = ramp 0 1 i) := by
  intro h
  have hopt : lpOptimal (ramp 0 1) 7 (ramp 0 1) (fun _ => 0) :=
    lpOptimal_self (ramp 0 1) 7 (ramp_feasible 0 1 (by norm_num) 7)
  have h5 := h (ramp 0 1) (fun _ => 0) hopt 5 (by norm_num)
  have e1 : LP_solver_output (ramp 0 1) (ramp 0 1) 7 5 = 4 := by
    norm_num [LP_solver_output, lpSmooth, ramp]
  have e2 : ramp 0 1 5 = 5 := by norm_num [ramp]
  rw [e1, e2] at h5
  norm_num at h5

/-- On a noise-free non-decreasing ramp, any optimal solution of
LP_solver's program has x = phi, and the returned reconstruction equals the
ramp at every gate except the final two, which are both held at the ramp
value of gate n-3 (lines 203-204). -/
lemma lp_ramp_roundtrip_except_tail (a s : ℚ) (hs : 0 ≤ s) (n : ℕ) (hn : 5 ≤ n)
    (x z : ℕ → ℚ) (hopt : lpOptimal (ramp a s) n x z) :
    (∀ i, i + 3 ≤ n → LP_solver_output (ramp a s) x n i = ramp a s i) ∧
      LP_solver_output (ramp a s) x n (n - 2) = ramp a s (n - 3) ∧
      LP_solver_output (ramp a s) x n (n - 1) = ramp a s (n - 3) := by
  have hx : ∀ i, i < n → x i = ramp a s i :=
    lp_opt_x_eq (ramp a s) n x z hopt (ramp_feasible a s hs n)
  have hmid : lpSmooth (ramp a s) x n (n - 3) = ramp a s (n - 3) := by
    obtain ⟨k, hk⟩ : ∃ k, n - 3 = k + 2 := ⟨n - 5, by omega⟩
    rw [hk]
    have : n - 3 + 4 < n + 2 := by omega
    exact lpSmooth_ramp a s x n k hx (by omega)
  refine ⟨?_, ?_, ?_⟩
  · intro i hi
    rw [LP_solver_output, if_neg (by omega)]
    rcases (by omega : i < 2 ∨ 2 ≤ i) with hc | hc
    · rw [lpSmooth, if_neg (by omega)]
    · obtain ⟨k, rfl⟩ : ∃ k, i = k + 2 := ⟨i - 2, by omega⟩
      exact lpSmooth_ramp a s x n k hx (by omega)
  · rw [LP_solver_output, if_pos (by omega)]
    exact hmid
  · rw [LP_solver_output, if_pos (by omega)]
    exact hmid


/-! ## PhaseUnfolding (radarQualityControl.py, lines 135-167)

The source scans each radial for a trusted start gate, then tracks a running
reference phase, adding `dphase` wherever the observed phase falls more than
`max_phaseDiff` below the reference.  The state variables `ref` and
`pt_start` are initialised once, before the loop over radials (lines
142-143), so they carry over from one radial to the next whenever the
start-gate scan of a radial finds nothing.

Embedding notes:
* np.std(w) < t (t > 0) is embedded as npVar w < t^2; both sides of the
  source comparison are non-negative so the two tests agree.
* the regression slope cov[0,1]/cov[0,0] of np.cov is embedded with the
  ddof = 1 divisors of np.cov (they cancel in the ratio).
* the model is used on runs whose pt_start is at least 5, matching the
  source whenever the start scan has succeeded at least once (the scan
  range begins at gate 5); for i < 5 the source's Phi_dp_array[i-5:i]
  denotes a Python negative slice, which no claim below exercises. -/

/-- Python slice xs[a:b] for 0 <= a <= b. -/
def pySlice (xs : List ℚ) (a b : ℕ) : List ℚ := (xs.drop a).take (b - a)

/-- np.mean of a 1-D array. -/
def npMean (xs : List ℚ) : ℚ := xs.sum / xs.length

/-- np.var (population variance, i.e. np.std squared). -/
def npVar (xs : List ℚ) : ℚ := ((xs.map (fun x => (x - npMean xs) ^ 2)).sum) / xs.length

/-- Sample covariance: entry [0,1] of np.cov (ddof = 1, divisor n-1);
npCov xs xs is entry [0,0]. -/
def npCov (xs ys : List ℚ) : ℚ :=
  (((xs.zip ys).map (fun p => (p.1 - npMean xs) * (p.2 - npMean ys))).sum) /
    ((xs.length : ℚ) - 1)

def cumsumFrom (acc : ℚ) : List ℚ → List ℚ
  | [] => []
  | x :: xs => (acc + x) :: cumsumFrom (acc + x) xs

/-- np.cumsum of a 1-D array. -/
def cumsum (xs : List ℚ) : List ℚ := cumsumFrom 0 xs

/-- The start-gate test of lines 151: np.std(Phi[i:i+10]) < 5.0 (embedded
as npVar < 25) and all rho[i-5:i] > 0.9. -/
def startCond (row rho : List ℚ) (i : ℕ) : Prop :=
  npVar (pySlice row i (i + 10)) < 25 ∧ ∀ v ∈ pySlice rho (i - 5) i, (0.9 : ℚ) < v

instance startCondDec (row rho : List ℚ) (i : ℕ) : Decidable (startCond row rho i) := by
  unfold startCond
  infer_instance

/-- Lines 150-154: find the first gate i (scanning 5 .. num_gate-10)
satisfying the start-gate test. -/
def findStart (row rho : List ℚ) : List ℕ → Option ℕ
  | [] => none
  | i :: rest => if startCond row rho i then some i else findStart row rho rest

/-- Lines 156-165, one iteration of the tracking loop at gate i: advance the
reference by slope * w_r when the 10-gate window is smooth (np.std < 15.0,
embedded as npVar < 225) and the 5-gate regression slope lies in (-5, 20);
then add dphase at gate i whenever Phi[i] - ref < max_phaseDiff. -/
def puStep (maxPD dph w_r : ℚ) (gw : List ℚ) (st : ℚ × List ℚ) (i : ℕ) : ℚ × List ℚ :=
  let sigma2 := npVar (pySlice st.2 i (i + 10))
  let slope := npCov (pySlice gw (i - 5) i) (pySlice st.2 (i - 5) i) /
    npCov (pySlice gw (i - 5) i) (pySlice gw (i - 5) i)
  let ref2 := if sigma2 < 225 ∧ -5 < slope ∧ slope < 20 then st.1 + slope * w_r else st.1
  let row2 := if st.2.getD i 0 - ref2 < maxPD then st.2.set i (st.2.getD i 0 + dph) else st.2
  (ref2, row2)

/-- One radial of PhaseUnfolding.  The carried pair is the (ref, pt_start)
state surviving from previous radials; it is replaced only when the start
scan succeeds (lines 150-154), and the possibly-updated reference is handed
on to the next radial. -/
def puRadial (maxPD dph : ℚ) (carried : ℚ × ℕ) (w_r : ℚ) (row rho : List ℚ) :
    (ℚ × ℕ) × List ℚ :=
  let ng := row.length
  let gw := cumsum (row.map (fun _ => w_r))
  let st : ℚ × ℕ :=
    match findStart row rho (List.range' 5 (ng - 14)) with
    | some i => (npMean (pySlice row (i - 5) i), i)
    | none => carried
  let res := (List.range' st.2 (ng - 9 - st.2)).foldl (puStep maxPD dph w_r gw) (st.1, row)
  ((res.1, st.2), res.2)

def puRadials (maxPD dph : ℚ) :
    (ℚ × ℕ) → List (List ℚ) → List (List ℚ) → List ℚ → List (List ℚ)
  | _, [], _, _ => []
  | _, _ :: _, [], _ => []
  | _, _ :: _, _ :: _, [] => []
  | carried, row :: rows, rh :: rhs, w :: ws =>
      let res := puRadial maxPD dph carried w row rh
      res.2 :: puRadials maxPD dph res.1 rows rhs ws

/-- PhaseUnfolding (lines 135-167): fold over the radials, threading the
(ref, pt_start) state initialised to (0.0, 0) at lines 142-143. -/
def PhaseUnfolding (Phi_dp_array rho_hv_array : List (List ℚ)) (GateWidth_array : List ℚ)
    (max_phaseDiff dphase : ℚ) : List (List ℚ) :=
  puRadials max_phaseDiff dphase (0, 0) Phi_dp_array rho_hv_array GateWidth_array

/-- A 15-gate constant radial trace. -/
def c4row (v : ℚ) : List ℚ := [v, v, v, v, v, v, v, v, v, v, v, v, v, v, v]

/-- First input: radial 0 holds phase 100 with good correlation, radial 1
holds phase 10 with correlation 0.5 (its start scan fails). -/
def c4PhiA : List (List ℚ) := [c4row 100, c4row 10]

/-- Second input: identical to c4PhiA on radial 1, but radial 0 holds
phase 0 instead of 100. -/
def c4PhiB : List (List ℚ) := [c4row 0, c4row 10]

def c4Rho : List (List ℚ) := [c4row 0.95, c4row 0.5]

def c4W : List ℚ := [1, 1]

/-- Evaluation of PhaseUnfolding on the first C4 input: radial 0 locks the
reference at phase 100 and hands (ref, pt_start) = (100, 5) to radial 1,
whose own start scan fails (correlation 0.5); gate 5 of radial 1 then reads
10 - 100 = -90 < -80 and is folded up to 190. -/
lemma phaseUnfolding_c4A :
    PhaseUnfolding c4PhiA c4Rho c4W (-80) 180 =
      [c4row 100, [10, 10, 10, 10, 10, 190, 10, 10, 10, 10, 10, 10, 10, 10, 10]] := by
  norm_num [PhaseUnfolding, puRadials, puRadial, findStart, startCond, puStep,
    pySlice, npMean, npVar, npCov, cumsum, cumsumFrom, c4PhiA, c4Rho, c4W, c4row,
    List.range']

/-- Evaluation of PhaseUnfolding on the second C4 input: radial 0 locks the
reference at phase 0, so radial 1 (identical input row) reads 10 - 0 = 10
and no gate is folded. -/
lemma phaseUnfolding_c4B :
    PhaseUnfolding c4PhiB c4Rho c4W (-80) 180 = [c4row 0, c4row 10] := by
  norm_num [PhaseUnfolding, puRadials, puRadial, findStart, startCond, puStep,
    pySlice, npMean, npVar, npCov, cumsum, cumsumFrom, c4PhiB, c4Rho, c4W, c4row,
    List.range']

/-- C4: the two inputs agree on every array of radial 1 (phase row,
correlation row, gate width), yet PhaseUnfolding returns different rows for
radial 1 - the (ref, pt_start) state initialised before the radial loop
(lines 142-143) carries over from radial 0 into radial 1 when radial 1's
start scan fails, so a radial's output depends on other radials' data.
This refutes the claimed per-radial noninterference of the stage. -/
theorem C4_cross_radial_state_leak :
    c4PhiA.getD 1 [] = c4PhiB.getD 1 [] ∧ c4Rho.getD 1 [] = c4Rho.getD 1 [] ∧
      c4W.getD 1 0 = c4W.getD 1 0 ∧
      (PhaseUnfolding c4PhiA c4Rho c4W (-80) 180).getD 1 [] ≠
        (PhaseUnfolding c4PhiB c4Rho c4W (-80) 180).getD 1 [] := by
  refine ⟨rfl, rfl, rfl, ?_⟩
  rw [phaseUnfolding_c4A, phaseUnfolding_c4B]
  norm_num [c4row]

/-- Correlation trace for the single-jump profile: 0.95 at every gate. -/
def c10rho : List ℚ :=
  [0.95, 0.95, 0.95, 0.95, 0.95, 0.95, 0.95, 0.95, 0.95, 0.95, 0.95, 0.95, 0.95,
    0.95, 0.95, 0.95, 0.95, 0.95, 0.95, 0.95, 0.95, 0.95, 0.95, 0.95, 0.95]

/-! ## DROPs rain-cell masking (dataMasking_DROPs, lines 347-385)

The source computes a sliding-window circular dispersion of the phase trace
(get_dispersion over rolling windows, lines 349-350), extracts candidate
cell-start gates (dispersion >= d_max) and cell-end gates (dispersion <
d_max and rho < rho_max), and then builds labels in a while loop with two
np.searchsorted calls (lines 362-383).

The index-list loop is embedded as the executable function buildLoop over
natural numbers; the dispersion part is embedded over the reals (np.cos and
np.sin act on the stored phase values directly).  The loop's counter
strictly increases on every iteration whenever the start and end index
lists are strictly sorted and disjoint - which np.where guarantees, the two
defining conditions being mutually exclusive - so a fuel of
length(id_start) + 1 is never exhausted and the fuelled recursion agrees
with the source's while loop. -/

/-- np.mean over the reals. -/
noncomputable def npMeanR (xs : List ℝ) : ℝ := xs.sum / xs.length

/-- np.var (population variance) over the reals. -/
noncomputable def npVarR (xs : List ℝ) : ℝ :=
  ((xs.map (fun t => (t - npMeanR xs) ^ 2)).sum) / xs.length

/-- get_dispersion (lines 48-51): variance of the cosines plus variance of
the sines of a window. -/
noncomputable def get_dispersion (w : List ℝ) : ℝ :=
  npVarR (w.map Real.cos) + npVarR (w.map Real.sin)

/-- rolling_window (lines 31-35) specialised to a 1-D array: the list of
all length-m contiguous windows (m >= 1). -/
def windows (m : ℕ) : List ℝ → List (List ℝ)
  | [] => []
  | x :: xs =>
      if m ≤ (x :: xs).length ∧ 0 < m then ((x :: xs).take m) :: windows m xs else []

/-- d_PhiDP (lines 349-350): dispersion over rolling windows of length
num_good, padded at the tail by repeating the last computed value
num_good - 1 times. -/
noncomputable def d_PhiDP (phi : List ℝ) (num_good : ℕ) : List ℝ :=
  let d := (windows num_good phi).map get_dispersion
  d ++ List.replicate (num_good - 1) (d.getLast?.getD 0)

open Classical in
/-- np.where on a predicate over indices 0 .. n-1, in ascending order. -/
noncomputable def idxWhere (p : ℕ → Prop) : ℕ → List ℕ
  | 0 => []
  | n + 1 => idxWhere p n ++ (if p n then [n] else [])

/-- np.searchsorted(l, x, side="left") for a sorted list: the number of
elements strictly below x. -/
def lowerBound (l : List ℕ) (x : ℕ) : ℕ := l.countP (fun y => decide (y < x))

/-- The slice assignment labels[a : b+1] = v. -/
def setRange (l : List ℕ) (a b v : ℕ) : List ℕ :=
  (List.range l.length).map (fun j => if a ≤ j ∧ j ≤ b then v else l.getD j 0)

/-- The while loop of lines 362-383.  State: counter (index into id_start),
i_end_prev, cell_id, labels.  Each iteration pairs the current start with
the first end >= start; if the start is exactly one past the previous end
the span is written with label cell_id - 1 (merge, line 374); otherwise a
new label is created only when the span holds at least population_min
gates (lines 377-379); then the counter jumps to the first start >= the
end just used (line 383). -/
def buildLoop (starts ends : List ℕ) (pop : ℤ) :
    ℕ → ℕ → ℕ → ℕ → List ℕ → List ℕ
  | 0, _, _, _, labels => labels
  | fuel + 1, counter, prev, cid, labels =>
      if counter < starts.length then
        if lowerBound ends (starts.getD counter 0) < ends.length then
          if (starts.getD counter 0 : ℤ) - (prev : ℤ) = 1 then
            buildLoop starts ends pop fuel
              (lowerBound starts (ends.getD (lowerBound ends (starts.getD counter 0)) 0))
              (ends.getD (lowerBound ends (starts.getD counter 0)) 0) cid
              (setRange labels (starts.getD counter 0)
                (ends.getD (lowerBound ends (starts.getD counter 0)) 0) (cid - 1))
          else if pop ≤ (ends.getD (lowerBound ends (starts.getD counter 0)) 0 : ℤ) -
              (starts.getD counter 0 : ℤ) + 1 then
            buildLoop starts ends pop fuel
              (lowerBound starts (ends.getD (lowerBound ends (starts.getD counter 0)) 0))
              (ends.getD (lowerBound ends (starts.getD counter 0)) 0) (cid + 1)
              (setRange labels (starts.getD counter 0)
                (ends.getD (lowerBound ends (starts.getD counter 0)) 0) cid)
          else
            buildLoop starts ends pop fuel
              (lowerBound starts (ends.getD (lowerBound ends (starts.getD counter 0)) 0))
              (ends.getD (lowerBound ends (starts.getD counter 0)) 0) cid labels
        else labels
      else labels

/-- dataMasking_DROPs (lines 347-385): label array of length
len(GateWidth_array), built from the start/end candidate gate lists.
(The parameter num_bad is accepted and ignored, exactly as in the source.) -/
noncomputable def dataMasking_DROPs (Phi_dp_array GateWidth_array rho_hv_array : List ℝ)
    (num_good num_bad : ℕ) (d_max rho_max : ℝ) (population_min : ℤ) : List ℕ :=
  let d := d_PhiDP Phi_dp_array num_good
  let id_start := idxWhere (fun i => d_max ≤ d.getD i 0) d.length
  let id_end := idxWhere (fun i => d.getD i 0 < d_max ∧ rho_hv_array.getD i 0 < rho_max) d.length
  buildLoop id_start id_end population_min (id_start.length + 1) 0 0 1
    (List.replicate GateWidth_array.length 0)

/-- A 15-gate phase trace (radian-valued entries, since get_dispersion
feeds the stored values directly to np.cos / np.sin).  Consecutive equal
entries give dispersion 0; consecutive (0, pi) pairs give dispersion 1. -/
noncomputable def phiC5 : List ℝ :=
  [0, 0, 0, Real.pi, 0, Real.pi, 0, 0, 0, Real.pi, Real.pi, 0, Real.pi, Real.pi, Real.pi]

/-- Correlation trace: below rho_max = 0.9 exactly at gates 6, 9 and 12. -/
def rhoC5 : List ℝ :=
  [0.95, 0.95, 0.95, 0.95, 0.95, 0.95, 0.5, 0.95, 0.95, 0.5, 0.95, 0.95, 0.5, 0.95, 0.95]

def gwC5 : List ℝ := [1, 2, 3, 4, 5, 6, 7, 8, 9, 10, 11, 12, 13, 14, 15]

/-- The dispersion trace of phiC5 with num_good = 2: dispersion 1 where
consecutive entries differ (0 versus pi), 0 where they agree, with one
padded tail value. -/
lemma dataMasking_c5_dPhiDP :
    d_PhiDP phiC5 2 = [0, 0, 1, 1, 1, 1, 0, 0, 1, 0, 1, 1, 0, 0, 0] := by
  norm_num [d_PhiDP, windows, get_dispersion, npVarR, npMeanR, phiC5,
    Real.cos_pi, Real.sin_pi, List.getLast?, List.replicate]

/-- dataMasking_DROPs on the concrete input: the start candidates are
gates 2, 3, 4, 5, 8, 10, 11 and the end candidates gates 6, 9, 12.  The
loop builds cell [2,6] (5 gates, labelled 1), rejects cell [8,9] (2 gates,
below population_min = 5, its gates stay 0, i_end_prev becomes 9), and then
merges cell [10,12] - whose start 10 is exactly one past the rejected
cell's end 9 - under label cell_id - 1 = 1. -/
lemma dataMasking_c5_eval :
    dataMasking_DROPs phiC5 gwC5 rhoC5 2 10 0.98 0.9 5 =
      [0, 0, 1, 1, 1, 1, 1, 0, 0, 0, 1, 1, 1, 0, 0] := by
  simp only [dataMasking_DROPs, dataMasking_c5_dPhiDP]
  norm_num [idxWhere, rhoC5, gwC5]
  decide

/-- Labels whose non-zero gates are interval-contiguous: any gate lying
between two gates of the same non-zero label carries that label too. -/
def labelContiguous (l : List ℕ) : Prop :=
  ∀ i j k, i ≤ j → j ≤ k → l.getD i 0 = l.getD k 0 → l.getD i 0 ≠ 0 →
    l.getD j 0 = l.getD i 0

/-- C5 counterexample: on the concrete input, label 1 occupies gates 2-6
and 10-12 while gates 7-9 hold label 0, so a fixed non-zero label does not
form one contiguous run and label-0 gates lie strictly between two gates of
the same non-zero label. -/
theorem C5_counterexample :
    ¬ labelContiguous (dataMasking_DROPs phiC5 gwC5 rhoC5 2 10 0.98 0.9 5) := by
  rw [dataMasking_c5_eval]
  intro h
  have := h 6 7 10 (by norm_num) (by norm_num) (by decide) (by decide)
  exact absurd this (by decide)

/-- C6 counterexample: on the concrete input the built candidate cell
[10,12] holds only 3 gates, below population_min = 5, yet its gates do not
stay at label 0 - the merge branch (line 374) assigns them label 1 without
any population check. -/
theorem C6_counterexample :
    (dataMasking_DROPs phiC5 gwC5 rhoC5 2 10 0.98 0.9 5).getD 10 0 = 1 ∧
      (dataMasking_DROPs phiC5 gwC5 rhoC5 2 10 0.98 0.9 5).getD 11 0 = 1 ∧
      (dataMasking_DROPs phiC5 gwC5 rhoC5 2 10 0.98 0.9 5).getD 12 0 = 1 ∧
      (dataMasking_DROPs phiC5 gwC5 rhoC5 2 10 0.98 0.9 5).getD 13 0 = 0 ∧
      (dataMasking_DROPs phiC5 gwC5 rhoC5 2 10 0.98 0.9 5).getD 9 0 = 0 := by
  rw [dataMasking_c5_eval]
  refine ⟨by decide, by decide, by decide, by decide, by decide⟩

/-- C7 counterexample: on the concrete input the candidate cell [10,12]
starts exactly one gate after the previously built cell [8,9], but that
previous cell was population-rejected and its gates carry label 0; the
candidate's gates receive label 1 (= cell_id - 1, the most recently created
label) instead of the earlier cell's label 0. -/
theorem C7_counterexample :
    (dataMasking_DROPs phiC5 gwC5 rhoC5 2 10 0.98 0.9 5).getD 8 0 = 0 ∧
      (dataMasking_DROPs phiC5 gwC5 rhoC5 2 10 0.98 0.9 5).getD 9 0 = 0 ∧
      (dataMasking_DROPs phiC5 gwC5 rhoC5 2 10 0.98 0.9 5).getD 10 0 ≠ 0 ∧
      (dataMasking_DROPs phiC5 gwC5 rhoC5 2 10 0.98 0.9 5).getD 10 0 = 1 := by
  rw [dataMasking_c5_eval]
  refine ⟨by decide, by decide, by decide, by decide⟩

/-! ### Structural invariants of the masking loop (claims C5, C6, C7)  -/

lemma setRange_length (l : List ℕ) (a b v : ℕ) : (setRange l a b v).length = l.length := by
  simp [setRange]

lemma getD_of_ge (l : List ℕ) (j : ℕ) (hj : l.length ≤ j) : l.getD j 0 = 0 := by
  rw [List.getD_eq_getElem?_getD, List.getElem?_eq_none (by omega)]
  rfl

lemma setRange_getD (l : List ℕ) (a b v j : ℕ) :
    (setRange l a b v).getD j 0 =
      if j < l.length ∧ a ≤ j ∧ j ≤ b then v else l.getD j 0 := by
  rcases lt_or_ge j l.length with hj | hj
  · rw [List.getD_eq_getElem?_getD, setRange, List.getElem?_map, List.getElem?_range hj]
    by_cases hab : a ≤ j ∧ j ≤ b
    · rw [if_pos ⟨hj, hab⟩]
      simp [hab]
    · rw [if_neg (by tauto)]
      simp [hab]
  · rw [if_neg (by omega), getD_of_ge _ _ (by rw [setRange_length]; omega)]
    rw [getD_of_ge _ _ hj]

lemma lowerBound_le_length (l : List ℕ) (x : ℕ) : lowerBound l x ≤ l.length :=
  List.countP_le_length _

/-- Every element at or beyond the np.searchsorted insertion point of x in a
strictly sorted list is at least x. -/
lemma sorted_drop_lowerBound (l : List ℕ) (hl : List.Pairwise (· < ·) l) (x : ℕ) :
    ∀ y ∈ l.drop (lowerBound l x), x ≤ y := by
  induction l with
  | nil => simp
  | cons a t ih =>
    rw [List.pairwise_cons] at hl
    by_cases ha : a < x
    · have hc : lowerBound (a :: t) x = lowerBound t x + 1 := by
        simp [lowerBound, List.countP_cons, ha]
      rw [hc, List.drop_succ_cons]
      exact ih hl.2
    · have hc : lowerBound (a :: t) x = 0 := by
        rw [lowerBound, List.countP_eq_zero]
        intro y hy
        simp only [List.mem_cons] at hy
        rcases hy with rfl | hy
        · simpa using ha
        · have := hl.1 y hy
          simp only [decide_eq_true_eq]
          omega
      rw [hc, List.drop_zero]
      intro y hy
      simp only [List.mem_cons] at hy
      rcases hy with rfl | hy
      · omega
      · have := hl.1 y hy
        omega

lemma getD_mem (l : List ℕ) (k : ℕ) (hk : k < l.length) : l.getD k 0 ∈ l := by
  rw [List.getD_eq_getElem?_getD, List.getElem?_eq_getElem hk]
  exact List.getElem_mem hk

lemma getD_mem_drop (l : List ℕ) (c k : ℕ) (hc : c ≤ k) (hk : k < l.length) :
    l.getD k 0 ∈ l.drop c := by
  have hlt : k - c < (l.drop c).length := by
    rw [List.length_drop]; omega
  have heq : (l.drop c).getD (k - c) 0 = l.getD k 0 := by
    rw [List.getD_eq_getElem?_getD, List.getD_eq_getElem?_getD, List.getElem?_drop,
      Nat.add_sub_cancel' hc]
  rw [← heq]
  exact getD_mem _ _ hlt

lemma replicate_getD (n j : ℕ) : (List.replicate n (0 : ℕ)).getD j 0 = 0 := by
  rcases lt_or_ge j n with hj | hj
  · rw [List.getD_eq_getElem?_getD, List.getElem?_eq_getElem (by simpa using hj)]
    simp
  · exact getD_of_ge _ _ (by simpa using hj)

/-- The non-zero labels of a radial, read in gate order, are non-decreasing. -/
def nonzeroMono (l : List ℕ) : Prop :=
  ∀ j k, j ≤ k → l.getD j 0 ≠ 0 → l.getD k 0 ≠ 0 → l.getD j 0 ≤ l.getD k 0

/-- The set of gates carrying label v. -/
def gatesWith (v : ℕ) (l : List ℕ) : Finset ℕ :=
  (Finset.range l.length).filter (fun j => l.getD j 0 = v)

lemma gatesWith_setRange_other (l : List ℕ) (a b v w : ℕ) (hw : w ≠ 0) (hwv : w ≠ v)
    (hpos : ∀ j, l.getD j 0 ≠ 0 → j < a) :
    gatesWith w (setRange l a b v) = gatesWith w l := by
  unfold gatesWith
  rw [setRange_length]
  ext j
  simp only [Finset.mem_filter, Finset.mem_range]
  constructor
  · rintro ⟨hj, hval⟩
    rw [setRange_getD] at hval
    by_cases hr : j < l.length ∧ a ≤ j ∧ j ≤ b
    · rw [if_pos hr] at hval
      exact absurd hval.symm hwv
    · rw [if_neg hr] at hval
      exact ⟨hj, hval⟩
  · rintro ⟨hj, hval⟩
    refine ⟨hj, ?_⟩
    rw [setRange_getD]
    have hja : j < a := hpos j (by rw [hval]; exact hw)
    rw [if_neg (by omega)]
    exact hval

lemma gatesWith_setRange_subset (l : List ℕ) (a b v : ℕ) (hv : v ≠ 0)
    (hpos : ∀ j, l.getD j 0 ≠ 0 → j < a) :
    gatesWith v l ⊆ gatesWith v (setRange l a b v) := by
  intro j hj
  unfold gatesWith at hj ⊢
  rw [setRange_length]
  simp only [Finset.mem_filter, Finset.mem_range] at hj ⊢
  refine ⟨hj.1, ?_⟩
  rw [setRange_getD]
  have hja : j < a := hpos j (by rw [hj.2]; exact hv)
  rw [if_neg (by omega)]
  exact hj.2

lemma gatesWith_setRange_card (l : List ℕ) (a b v : ℕ)
    (hab : a ≤ b) (hb : b < l.length) :
    (b - a + 1 : ℕ) ≤ (gatesWith v (setRange l a b v)).card := by
  have hsub : Finset.Icc a b ⊆ gatesWith v (setRange l a b v) := by
    intro j hj
    rw [Finset.mem_Icc] at hj
    unfold gatesWith
    rw [setRange_length]
    simp only [Finset.mem_filter, Finset.mem_range]
    refine ⟨by omega, ?_⟩
    rw [setRange_getD, if_pos ⟨by omega, hj.1, hj.2⟩]
  have hcard := Finset.card_le_card hsub
  rw [Nat.card_Icc] at hcard
  omega

lemma nonzeroMono_setRange (l : List ℕ) (a b v : ℕ)
    (hmono : nonzeroMono l)
    (hub : ∀ j, l.getD j 0 ≤ v)
    (hpos : ∀ j, l.getD j 0 ≠ 0 → j < a) :
    nonzeroMono (setRange l a b v) := by
  intro j k hjk hj hk
  rw [setRange_getD] at hj hk
  rw [setRange_getD, setRange_getD]
  by_cases hrj : j < l.length ∧ a ≤ j ∧ j ≤ b
  · by_cases hrk : k < l.length ∧ a ≤ k ∧ k ≤ b
    · rw [if_pos hrj, if_pos hrk]
    · rw [if_neg hrk] at hk
      have hka : k < a := hpos k hk
      omega
  · rw [if_neg hrj] at hj
    rw [if_neg hrj]
    by_cases hrk : k < l.length ∧ a ≤ k ∧ k ≤ b
    · rw [if_pos hrk]
      exact hub j
    · rw [if_neg hrk] at hk
      rw [if_neg hrk]
      exact hmono j k hjk hj hk

lemma setRange_nonzero_le (l : List ℕ) (a b v j : ℕ)
    (hpos : ∀ i, l.getD i 0 ≠ 0 → i < a) (hab : a ≤ b)
    (hj : (setRange l a b v).getD j 0 ≠ 0) : j ≤ b := by
  rw [setRange_getD] at hj
  by_cases hr : j < l.length ∧ a ≤ j ∧ j ≤ b
  · exact hr.2.2
  · rw [if_neg hr] at hj
    have := hpos j hj
    omega

lemma buildLoop_invariant (starts ends : List ℕ) (pop : ℤ) (n : ℕ)
    (hs : List.Pairwise (· < ·) starts) (he : List.Pairwise (· < ·) ends)
    (hdisj : ∀ a ∈ starts, a ∉ ends)
    (hend : ∀ e ∈ ends, e < n) :
    ∀ fuel counter prev cid labels,
      labels.length = n → 1 ≤ cid →
      (∀ j, labels.getD j 0 < cid) →
      (∀ v, 1 ≤ v → v < cid → pop ≤ ((gatesWith v labels).card : ℤ)) →
      nonzeroMono labels →
      (∀ s ∈ starts.drop counter, ∀ j, labels.getD j 0 ≠ 0 → j < s) →
      ∃ cid2, 1 ≤ cid2 ∧
        (buildLoop starts ends pop fuel counter prev cid labels).length = n ∧
        (∀ j, (buildLoop starts ends pop fuel counter prev cid labels).getD j 0 < cid2) ∧
        (∀ v, 1 ≤ v → v < cid2 →
          pop ≤ ((gatesWith v (buildLoop starts ends pop fuel counter prev cid labels)).card : ℤ)) ∧
        nonzeroMono (buildLoop starts ends pop fuel counter prev cid labels) := by
  intro fuel
  induction fuel with
  | zero =>
    intro counter prev cid labels hlen hcid hbound hcount hmono hpos
    exact ⟨cid, hcid, hlen, hbound, hcount, hmono⟩
  | succ fuel ih =>
    intro counter prev cid labels hlen hcid hbound hcount hmono hpos
    rw [buildLoop]
    by_cases h1 : counter < starts.length
    · rw [if_pos h1]
      by_cases h2 : lowerBound ends (starts.getD counter 0) < ends.length
      · rw [if_pos h2]
        have hiSmem : starts.getD counter 0 ∈ starts.drop counter :=
          getD_mem_drop _ _ _ le_rfl h1
        have hiEdrop : ends.getD (lowerBound ends (starts.getD counter 0)) 0 ∈
            ends.drop (lowerBound ends (starts.getD counter 0)) :=
          getD_mem_drop _ _ _ le_rfl h2
        have hse : starts.getD counter 0 ≤ ends.getD (lowerBound ends (starts.getD counter 0)) 0 :=
          sorted_drop_lowerBound ends he _ _ hiEdrop
        have hiEmem : ends.getD (lowerBound ends (starts.getD counter 0)) 0 ∈ ends :=
          getD_mem _ _ h2
        have hiEn : ends.getD (lowerBound ends (starts.getD counter 0)) 0 < n := hend _ hiEmem
        have hposS : ∀ j, labels.getD j 0 ≠ 0 → j < starts.getD counter 0 :=
          hpos _ hiSmem
        have hposNew : ∀ s ∈ starts.drop
            (lowerBound starts (ends.getD (lowerBound ends (starts.getD counter 0)) 0)),
            ends.getD (lowerBound ends (starts.getD counter 0)) 0 < s := by
          intro s hsmem
          have h1s := sorted_drop_lowerBound starts hs _ s hsmem
          have h2s : s ≠ ends.getD (lowerBound ends (starts.getD counter 0)) 0 := by
            intro heq
            exact hdisj s (List.mem_of_mem_drop hsmem) (heq ▸ hiEmem)
          omega
        by_cases h3 : (starts.getD counter 0 : ℤ) - (prev : ℤ) = 1
        · rw [if_pos h3]
          refine ih _ _ _ _ (by rw [setRange_length]; exact hlen) hcid ?_ ?_ ?_ ?_
          · intro j
            rw [setRange_getD]
            by_cases hr : j < labels.length ∧ starts.getD counter 0 ≤ j ∧
                j ≤ ends.getD (lowerBound ends (starts.getD counter 0)) 0
            · rw [if_pos hr]; omega
            · rw [if_neg hr]; exact hbound j
          · intro v hv1 hv2
            by_cases hveq : v = cid - 1
            · subst hveq
              refine le_trans (hcount _ hv1 hv2) ?_
              exact_mod_cast Finset.card_le_card
                (gatesWith_setRange_subset labels _ _ _ (by omega) hposS)
            · rw [gatesWith_setRange_other labels _ _ _ v (by omega) hveq hposS]
              exact hcount v hv1 hv2
          · exact nonzeroMono_setRange labels _ _ _ hmono (fun j => by have := hbound j; omega)
              hposS
          · intro s hsmem j hj
            have hjE := setRange_nonzero_le labels _ _ _ j hposS hse hj
            have := hposNew s hsmem
            omega
        · rw [if_neg h3]
          by_cases h4 : pop ≤ (ends.getD (lowerBound ends (starts.getD counter 0)) 0 : ℤ) -
              (starts.getD counter 0 : ℤ) + 1
          · rw [if_pos h4]
            refine ih _ _ _ _ (by rw [setRange_length]; exact hlen) (by omega) ?_ ?_ ?_ ?_
            · intro j
              rw [setRange_getD]
              by_cases hr : j < labels.length ∧ starts.getD counter 0 ≤ j ∧
                  j ≤ ends.getD (lowerBound ends (starts.getD counter 0)) 0
              · rw [if_pos hr]; omega
              · rw [if_neg hr]; have := hbound j; omega
            · intro v hv1 hv2
              by_cases hveq : v = cid
              · subst hveq
                have hcard := gatesWith_setRange_card labels (starts.getD counter 0)
                  (ends.getD (lowerBound ends (starts.getD counter 0)) 0) v hse
                  (by rw [hlen]; exact hiEn)
                have hcast : ((ends.getD (lowerBound ends (starts.getD counter 0)) 0 -
                    starts.getD counter 0 + 1 : ℕ) : ℤ) ≤
                    ((gatesWith v (setRange labels (starts.getD counter 0)
                      (ends.getD (lowerBound ends (starts.getD counter 0)) 0) v)).card : ℤ) := by
                  exact_mod_cast hcard
                refine le_trans ?_ hcast
                omega
              · rw [gatesWith_setRange_other labels _ _ _ v (by omega) hveq hposS]
                exact hcount v hv1 (by omega)
            · exact nonzeroMono_setRange labels _ _ _ hmono
                (fun j => by have := hbound j; omega) hposS
            · intro s hsmem j hj
              have hjE := setRange_nonzero_le labels _ _ _ j hposS hse hj
              have := hposNew s hsmem
              omega
          · rw [if_neg h4]
            refine ih _ _ _ _ hlen hcid hbound hcount hmono ?_
            intro s hsmem j hj
            have := hposS j hj
            have := hposNew s hsmem
            omega
      · rw [if_neg h2]
        exact ⟨cid, hcid, hlen, hbound, hcount, hmono⟩
    · rw [if_neg h1]
      exact ⟨cid, hcid, hlen, hbound, hcount, hmono⟩

lemma idxWhere_mem (p : ℕ → Prop) (n : ℕ) : ∀ x, x ∈ idxWhere p n ↔ x < n ∧ p x := by
  induction n with
  | zero => intro x; simp [idxWhere]
  | succ n ih =>
    intro x
    rw [idxWhere, List.mem_append]
    by_cases hp : p n
    · rw [if_pos hp]
      simp only [List.mem_singleton]
      rw [ih]
      constructor
      · rintro (⟨hx, hpx⟩ | rfl)
        · exact ⟨by omega, hpx⟩
        · exact ⟨by omega, hp⟩
      · rintro ⟨hx, hpx⟩
        rcases (by omega : x < n ∨ x = n) with h | rfl
        · exact Or.inl ⟨h, hpx⟩
        · exact Or.inr rfl
    · rw [if_neg hp]
      simp only [List.not_mem_nil, or_false]
      rw [ih]
      constructor
      · rintro ⟨hx, hpx⟩
        exact ⟨by omega, hpx⟩
      · rintro ⟨hx, hpx⟩
        rcases (by omega : x < n ∨ x = n) with h | rfl
        · exact ⟨h, hpx⟩
        · exact absurd hpx hp

lemma idxWhere_sorted (p : ℕ → Prop) (n : ℕ) : List.Pairwise (· < ·) (idxWhere p n) := by
  induction n with
  | zero => simp [idxWhere]
  | succ n ih =>
    rw [idxWhere]
    refine List.pairwise_append.mpr ⟨ih, ?_, ?_⟩
    · by_cases hp : p n
      · rw [if_pos hp]
        exact List.pairwise_singleton _ _
      · rw [if_neg hp]
        exact List.Pairwise.nil
    · intro a ha b hb
      have hamem := (idxWhere_mem p n a).mp ha
      by_cases hp : p n
      · rw [if_pos hp] at hb
        simp only [List.mem_singleton] at hb
        subst hb
        exact hamem.1
      · rw [if_neg hp] at hb
        simp at hb

lemma windows_length (m : ℕ) (xs : List ℝ) (hm : 0 < m) :
    (windows m xs).length = xs.length + 1 - m := by
  induction xs with
  | nil =>
    rw [windows]
    simp only [List.length_nil]
    omega
  | cons x xs ih =>
    rw [windows]
    by_cases hc : m ≤ (x :: xs).length ∧ 0 < m
    · rw [if_pos hc]
      simp only [List.length_cons]
      rw [ih]
      have := hc.1
      simp only [List.length_cons] at this
      omega
    · rw [if_neg hc]
      simp only [List.length_cons] at hc
      simp only [List.length_nil, List.length_cons]
      omega

lemma d_PhiDP_length (phi : List ℝ) (m : ℕ) (h1 : 1 ≤ m) (h2 : m ≤ phi.length) :
    (d_PhiDP phi m).length = phi.length := by
  simp only [d_PhiDP, List.length_append, List.length_map, List.length_replicate]
  rw [windows_length m phi h1]
  omega

lemma getD_of_lt (l : List ℕ) (j : ℕ) (h : j < l.length) : l.getD j 0 = l[j] := by
  rw [List.getD_eq_getElem?_getD, List.getElem?_eq_getElem h]
  rfl

/-- C5 (amended): for every input, the non-zero labels returned by
dataMasking_DROPs are non-decreasing in gate order - runs of distinct
non-zero labels never interleave and are ordered by start index - though a
single label's gates need not be contiguous. -/
theorem C5_amended_labels_ordered (phi gw rho : List ℝ) (num_good num_bad : ℕ)
    (d_max rho_max : ℝ) (pop : ℤ)
    (h1 : 1 ≤ num_good) (h2 : num_good ≤ phi.length) (h3 : phi.length = gw.length) :
    nonzeroMono (dataMasking_DROPs phi gw rho num_good num_bad d_max rho_max pop) := by
  simp only [dataMasking_DROPs]
  have hd : (d_PhiDP phi num_good).length = phi.length := d_PhiDP_length phi num_good h1 h2
  obtain ⟨cid2, -, -, -, -, hmono⟩ :=
    buildLoop_invariant
      (idxWhere (fun i => d_max ≤ (d_PhiDP phi num_good).getD i 0) (d_PhiDP phi num_good).length)
      (idxWhere (fun i => (d_PhiDP phi num_good).getD i 0 < d_max ∧ rho.getD i 0 < rho_max)
        (d_PhiDP phi num_good).length)
      pop gw.length
      (idxWhere_sorted _ _) (idxWhere_sorted _ _)
      (by
        intro a ha hb
        rw [idxWhere_mem] at ha hb
        exact absurd ha.2 (not_le.mpr hb.2.1))
      (by
        intro e he
        rw [idxWhere_mem] at he
        omega)
      _ 0 0 1 (List.replicate gw.length 0)
      (by simp) le_rfl
      (fun j => by rw [replicate_getD]; omega)
      (fun v hv1 hv2 => by omega)
      (fun j k _ hj _ => absurd (replicate_getD _ _) hj)
      (fun s _ j hj => absurd (replicate_getD _ _) hj)
  exact hmono

/-- C6 (amended, first half): every non-zero label present in the returned
array is carried by at least population_min gates.  (Creation enforces the
population check; merges only ever extend the most recently created label.) -/
theorem C6_amended_label_population (phi gw rho : List ℝ) (num_good num_bad : ℕ)
    (d_max rho_max : ℝ) (pop : ℤ)
    (h1 : 1 ≤ num_good) (h2 : num_good ≤ phi.length) (h3 : phi.length = gw.length) :
    ∀ v : ℕ, 1 ≤ v →
      v ∈ dataMasking_DROPs phi gw rho num_good num_bad d_max rho_max pop →
      pop ≤ ((gatesWith v (dataMasking_DROPs phi gw rho num_good num_bad d_max rho_max pop)).card : ℤ) := by
  simp only [dataMasking_DROPs]
  have hd : (d_PhiDP phi num_good).length = phi.length := d_PhiDP_length phi num_good h1 h2
  obtain ⟨cid2, -, -, hbound, hcount, -⟩ :=
    buildLoop_invariant
      (idxWhere (fun i => d_max ≤ (d_PhiDP phi num_good).getD i 0) (d_PhiDP phi num_good).length)
      (idxWhere (fun i => (d_PhiDP phi num_good).getD i 0 < d_max ∧ rho.getD i 0 < rho_max)
        (d_PhiDP phi num_good).length)
      pop gw.length
      (idxWhere_sorted _ _) (idxWhere_sorted _ _)
      (by
        intro a ha hb
        rw [idxWhere_mem] at ha hb
        exact absurd ha.2 (not_le.mpr hb.2.1))
      (by
        intro e he
        rw [idxWhere_mem] at he
        omega)
      ((idxWhere (fun i => d_max ≤ (d_PhiDP phi num_good).getD i 0)
        (d_PhiDP phi num_good).length).length + 1) 0 0 1 (List.replicate gw.length 0)
      (by simp) le_rfl
      (fun j => by rw [replicate_getD]; omega)
      (fun v hv1 hv2 => by omega)
      (fun j k _ hj _ => absurd (replicate_getD _ _) hj)
      (fun s _ j hj => absurd (replicate_getD _ _) hj)
  intro v hv1 hvmem
  obtain ⟨j, hj, hjv⟩ := List.getElem_of_mem hvmem
  have hgd := getD_of_lt _ j hj
  rw [hjv] at hgd
  have hvlt : v < cid2 := by
    have := hbound j
    omega
  exact hcount v hv1 hvlt

/-- Witness for the amended C5 at the concrete masking input. -/
theorem C5_amended_labels_ordered_witness :
    (1 ≤ 2 ∧ 2 ≤ phiC5.length ∧ phiC5.length = gwC5.length) ∧
      nonzeroMono (dataMasking_DROPs phiC5 gwC5 rhoC5 2 10 0.98 0.9 5) := by
  have hl1 : phiC5.length = 15 := by norm_num [phiC5]
  have hl2 : gwC5.length = 15 := by norm_num [gwC5]
  exact ⟨⟨by norm_num, by rw [hl1]; norm_num, by rw [hl1, hl2]⟩,
    C5_amended_labels_ordered phiC5 gwC5 rhoC5 2 10 0.98 0.9 5 (by norm_num)
      (by rw [hl1]; norm_num) (by rw [hl1, hl2])⟩

/-- Witness for the amended C6 at the concrete masking input. -/
theorem C6_amended_label_population_witness :
    (1 ≤ 2 ∧ 2 ≤ phiC5.length ∧ phiC5.length = gwC5.length) ∧
      (∀ v : ℕ, 1 ≤ v → v ∈ dataMasking_DROPs phiC5 gwC5 rhoC5 2 10 0.98 0.9 5 →
        (5 : ℤ) ≤ ((gatesWith v (dataMasking_DROPs phiC5 gwC5 rhoC5 2 10 0.98 0.9 5)).card : ℤ)) := by
  have hl1 : phiC5.length = 15 := by norm_num [phiC5]
  have hl2 : gwC5.length = 15 := by norm_num [gwC5]
  exact ⟨⟨by norm_num, by rw [hl1]; norm_num, by rw [hl1, hl2]⟩,
    C6_amended_label_population phiC5 gwC5 rhoC5 2 10 0.98 0.9 5 (by norm_num)
      (by rw [hl1]; norm_num) (by rw [hl1, hl2])⟩

/-- C7 (amended): whenever the current candidate's start is exactly one
greater than the previous end index, the loop writes label cell_id - 1 over
the candidate's span [i_start, i_end] - the most recently created label,
which is the earlier adjacent cell's label precisely when that cell passed
the population check - and continues without incrementing cell_id, so no
fresh label is ever allocated by a merge. -/
theorem C7_amended_merge_no_fresh_label (starts ends : List ℕ) (pop : ℤ)
    (fuel counter prev cid : ℕ) (labels : List ℕ)
    (h1 : counter < starts.length)
    (h2 : lowerBound ends (starts.getD counter 0) < ends.length)
    (hmerge : (starts.getD counter 0 : ℤ) - (prev : ℤ) = 1) :
    buildLoop starts ends pop (fuel + 1) counter prev cid labels =
      buildLoop starts ends pop fuel
        (lowerBound starts (ends.getD (lowerBound ends (starts.getD counter 0)) 0))
        (ends.getD (lowerBound ends (starts.getD counter 0)) 0) cid
        (setRange labels (starts.getD counter 0)
          (ends.getD (lowerBound ends (starts.getD counter 0)) 0) (cid - 1)) := by
  rw [buildLoop, if_pos h1, if_pos h2, if_pos hmerge]

/-- Witness for the amended C7 at a concrete loop state: the candidate
starting at gate 5 follows the previous end 4, and its span [5,7] is
written with label cid - 1 = 1 while cell_id stays 2. -/
theorem C7_amended_merge_no_fresh_label_witness :
    (1 < ([2, 5] : List ℕ).length ∧
      lowerBound [4, 7] (([2, 5] : List ℕ).getD 1 0) < ([4, 7] : List ℕ).length ∧
      (([2, 5] : List ℕ).getD 1 0 : ℤ) - (4 : ℤ) = 1) ∧
      buildLoop [2, 5] [4, 7] 2 4 1 4 2 [0, 0, 1, 1, 1, 0, 0, 0] =
        buildLoop [2, 5] [4, 7] 2 3
          (lowerBound [2, 5] (([4, 7] : List ℕ).getD (lowerBound [4, 7] (([2, 5] : List ℕ).getD 1 0)) 0))
          (([4, 7] : List ℕ).getD (lowerBound [4, 7] (([2, 5] : List ℕ).getD 1 0)) 0) 2
          (setRange [0, 0, 1, 1, 1, 0, 0, 0] (([2, 5] : List ℕ).getD 1 0)
            (([4, 7] : List ℕ).getD (lowerBound [4, 7] (([2, 5] : List ℕ).getD 1 0)) 0) (2 - 1)) := by
  refine ⟨⟨by decide, by decide, by decide⟩, ?_⟩
  exact C7_amended_merge_no_fresh_label [2, 5] [4, 7] 2 3 1 4 2 [0, 0, 1, 1, 1, 0, 0, 0]
    (by decide) (by decide) (by decide)

/-! ## Z-PHI attenuation correction (get_para_a and correct_ZPHI, lines 464-499)

correct_ZPHI finds a coefficient c by differential evolution, then computes
PIA = c * (Phi_dp - Phi_dp[r_start]) (line 495), the coefficient
a = get_para_a(reflect_integral, PIA) (line 498) and rescales
reflectivity[i] by (1 - 0.46 * a * b * reflect_integral)^(1/b) (line 499),
with no check of the optimizer result and no failure branch of any kind.
The per-gate accumulated integral of reflectivity^b (the scipy composite
Simpson quadrature of line 497) is abstracted as the function RI below; the
claims settled here hold for every value it can take. -/

/-- get_para_a (lines 464-468). -/
noncomputable def get_para_a (reflect_integral PIA b : ℝ) : ℝ :=
  1.0 - Real.exp (-0.23 * b * PIA) / 0.46 / reflect_integral

/-- The reflectivity value correct_ZPHI stores at gate i >= r_start
(lines 495-499), for the coefficient c returned by the optimizer. -/
noncomputable def correct_ZPHI_gate (c b : ℝ) (reflectivity phi RI : ℕ → ℝ)
    (r_start i : ℕ) : ℝ :=
  reflectivity i /
    (1.0 - 0.46 * get_para_a (RI i) (c * (phi i - phi r_start)) b * b * RI i) ^ ((1 : ℝ) / b)

/-- With zero phase growth the PIA vanishes for every c, yet get_para_a
returns 1 - 1/(0.46 * I), not 0, so the rescale divisor is
1 + b * (1 - 0.46 * I), which differs from 1 whenever 0.46 * I is not 1. -/
lemma zphi_divisor_at_zero_PIA (c : ℝ) :
    (1.0 : ℝ) - 0.46 * get_para_a 1 (c * ((100 : ℝ) - 100)) 0.78 * 0.78 * 1 = 3553 / 2500 := by
  rw [get_para_a]
  norm_num [Real.exp_zero]

/-- C3: for a radial whose differential phase is constant (here 100 at every
gate, so PIA = c * (phi i - phi r_start) = 0 for every coefficient c), the
code still rescales reflectivity: at a gate with accumulated integral 1 and
reflectivity 50, the stored value is 50 / (3553/2500)^(1/0.78) < 50.  The
claim says reflectivity must be numerically unchanged when the PIA is 0. -/
theorem C3_zero_PIA_still_rescales (c : ℝ) :
    correct_ZPHI_gate c 0.78 (fun _ => 50) (fun _ => 100) (fun _ => 1) 0 7 < 50 := by
  have hbase := zphi_divisor_at_zero_PIA c
  simp only [correct_ZPHI_gate]
  rw [hbase]
  have hexp : (1 : ℝ) < ((3553 / 2500 : ℝ)) ^ ((1 : ℝ) / 0.78) :=
    (Real.one_lt_rpow_iff_of_pos (by norm_num)).mpr (Or.inl ⟨by norm_num, by norm_num⟩)
  exact div_lt_self (by norm_num) hexp

/-- C9: correct_ZPHI has no failure branch: for every coefficient c inside
the optimizer bounds [0.03, 0.18] - that is, whatever value the optimizer
returns, converged or not - the reflectivity stored at a gate of this
degenerate constant-phase radial differs from the original value, and no
AttenuationFitFailure signal exists anywhere on the path. -/
theorem C9_always_rescales (c : ℝ) (h1 : 0.03 ≤ c) (h2 : c ≤ 0.18) :
    correct_ZPHI_gate c 0.78 (fun _ => 30) (fun _ => 100) (fun _ => 100 / 23) 0 5 ≠ 30 := by
  have hbase : (1.0 : ℝ) - 0.46 * get_para_a (100 / 23) (c * ((100 : ℝ) - 100)) 0.78 * 0.78 *
      (100 / 23) = 11 / 50 := by
    rw [get_para_a]
    norm_num [Real.exp_zero]
  simp only [correct_ZPHI_gate]
  rw [hbase]
  have hz0 : (0 : ℝ) < ((11 / 50 : ℝ)) ^ ((1 : ℝ) / 0.78) :=
    Real.rpow_pos_of_pos (by norm_num) _
  have hz1 : ((11 / 50 : ℝ)) ^ ((1 : ℝ) / 0.78) < 1 :=
    Real.rpow_lt_one (by norm_num) (by norm_num) (by norm_num)
  have hgt : (30 : ℝ) < 30 / ((11 / 50 : ℝ)) ^ ((1 : ℝ) / 0.78) := by
    rw [lt_div_iff₀ hz0]
    nlinarith
  exact (ne_of_lt hgt).symm

/-- Witness for C9 at the concrete coefficient c = 0.1. -/
theorem C9_always_rescales_witness :
    ((0.03 : ℝ) ≤ 0.1 ∧ (0.1 : ℝ) ≤ 0.18) ∧
      correct_ZPHI_gate 0.1 0.78 (fun _ => 30) (fun _ => 100) (fun _ => 100 / 23) 0 5 ≠ 30 :=
  ⟨⟨by norm_num, by norm_num⟩, C9_always_rescales 0.1 (by norm_num) (by norm_num)⟩

/-! ## Spline reconstruction on short cells (PhaseRec_DROPs, lines 402-459)

PhaseRec_DROPs contains no error handling at all: no try/except, no cell
length check, and no identifier resembling SegmentTooShort exists in the
repository.  For a labelled cell of M gates its per-cell set-up performs
the following numpy operations, embedded below at the shape level:
np.full(M-2) (line 411; negative length raises ValueError), np.diag sums
for M_mat and Q_mat (lines 412-420; numpy broadcasting accepts dimensions
that are equal or 1 and otherwise raises ValueError), the matrix products
against the M-entry complex phase vector (lines 421-422; np.dot raises
ValueError when inner dimensions differ), and
get_invW(rolling_window(Phi_dp_i, 5), 1) (line 431), which indexes element
0 of the M-4 window statistics and raises IndexError when no window
exists.  An exception raised here propagates out of PhaseRec_DROPs and
aborts the whole sweep - no per-cell scoping and no retention of the
radial's remaining cells takes place. -/

/-- numpy broadcasting of one dimension: equal sizes, or a size-1 side. -/
def bcastDim (a b : ℕ) : Option ℕ :=
  if a = b then some a else if a = 1 then some b else if b = 1 then some a else none

/-- Shape of the elementwise sum of two 2-D arrays under broadcasting. -/
def npAdd2 (x y : ℕ × ℕ) : Except String (ℕ × ℕ) :=
  match bcastDim x.1 y.1, bcastDim x.2 y.2 with
  | some r, some c => Except.ok (r, c)
  | _, _ => Except.error "ValueError: operands could not be broadcast together"

/-- np.diag of a 1-D array of length m with offset |k| is square of size
m + |k|. -/
def npDiagShape (m k : ℕ) : ℕ × ℕ := (m + k, m + k)

/-- np.full with a possibly negative length. -/
def npFullLen (m : ℤ) : Except String ℕ :=
  if m < 0 then Except.error "ValueError: negative dimensions are not allowed"
  else Except.ok m.toNat

/-- np.dot of two 2-D arrays. -/
def npDotMM (x y : ℕ × ℕ) : Except String (ℕ × ℕ) :=
  if x.2 = y.1 then Except.ok (x.1, y.2) else Except.error "ValueError: shapes not aligned"

/-- np.dot of a 2-D array with a 1-D vector. -/
def npDotMV (x : ℕ × ℕ) (v : ℕ) : Except String ℕ :=
  if x.2 = v then Except.ok x.1 else Except.error "ValueError: shapes not aligned"

/-- Shape-level model of the per-cell spline set-up of PhaseRec_DROPs
(lines 406-431) on a cell of M gates: h_vec has length M, p_vec length
M - 2, l_vec length M - 1, u_vec length M - 2, and the slices h_vec[1:-2],
u_vec[:-1] and l_vec[1:-2] have lengths M - 3, M - 3 and M - 4. -/
def PhaseRec_cell_setup (M : ℕ) : Except String Unit := do
  let pLen ← npFullLen ((M : ℤ) - 2)
  let m1 ← npAdd2 (npDiagShape pLen 0) (npDiagShape (M - 3) 1)
  let mMat ← npAdd2 m1 (npDiagShape (M - 3) 1)
  let q1 ← npAdd2 (npDiagShape (M - 2) 0) (npDiagShape (M - 3) 1)
  let q0 ← npAdd2 q1 (npDiagShape (M - 1 - 3) 2)
  if q0.1 < 2 then
    Except.error "IndexError: index -2 is out of bounds"
  else do
    let qqt ← npDotMM (q0.1, q0.2 + 2) (q0.2 + 2, q0.1)
    let s1 ← npAdd2 mMat qqt
    let b1 ← npDotMM s1 (q0.1, q0.2 + 2)
    let _ ← npDotMV b1 M
    if M - 4 = 0 then
      Except.error "IndexError: index 0 is out of bounds"
    else
      Except.ok ()

/-- C8: short cells do not fail with a scoped SegmentTooShort - the numpy
set-up itself raises an unhandled exception (broadcast failure for a 2-gate
cell, misaligned matrix-vector product for a 3-gate cell, empty rolling
window indexed by get_invW for a 4-gate cell, negative np.full dimension
for a 1-gate cell), which aborts the entire sweep, while cells of 5 or more
gates pass the same set-up. -/
theorem C8_short_cell_unhandled_exception :
    PhaseRec_cell_setup 1 = Except.error "ValueError: negative dimensions are not allowed" ∧
      PhaseRec_cell_setup 2 = Except.error "ValueError: operands could not be broadcast together" ∧
      PhaseRec_cell_setup 3 = Except.error "ValueError: shapes not aligned" ∧
      PhaseRec_cell_setup 4 = Except.error "IndexError: index 0 is out of bounds" ∧
      PhaseRec_cell_setup 5 = Except.ok () ∧
      PhaseRec_cell_setup 6 = Except.ok () := by
  exact ⟨rfl, rfl, rfl, rfl, rfl, rfl⟩

lemma map_add_sum (xs : List ℚ) (c : ℚ) :
    (xs.map (fun t => t + c)).sum = xs.sum + xs.length * c := by
  induction xs with
  | nil => simp
  | cons x xs ih =>
    simp only [List.map_cons, List.sum_cons, List.length_cons, ih]
    push_cast
    ring

lemma npMean_shift (xs : List ℚ) (c : ℚ) (hx : xs ≠ []) :
    npMean (xs.map (fun t => t + c)) = npMean xs + c := by
  have h0 : 0 < xs.length := List.length_pos.mpr hx
  have hn : (xs.length : ℚ) ≠ 0 := Nat.cast_ne_zero.mpr (by omega)
  rw [npMean, npMean, List.length_map, map_add_sum]
  field_simp
  ring

lemma npVar_shift (xs : List ℚ) (c : ℚ) :
    npVar (xs.map (fun t => t + c)) = npVar xs := by
  rcases eq_or_ne xs [] with rfl | hx
  · simp
  · rw [npVar, npVar, List.length_map, List.map_map]
    have hmaps : List.map ((fun x => (x - npMean (List.map (fun t => t + c) xs)) ^ 2) ∘
        fun t => t + c) xs = List.map (fun x => (x - npMean xs) ^ 2) xs :=
      List.map_congr_left (fun x _ => by
        simp only [Function.comp_apply, npMean_shift xs c hx]
        ring)
    rw [hmaps]

lemma npCov_shift_right (xs ys : List ℚ) (c : ℚ) :
    npCov xs (ys.map (fun t => t + c)) = npCov xs ys := by
  rcases eq_or_ne ys [] with rfl | hy
  · simp
  · rw [npCov, npCov, List.zip_map_right, List.map_map]
    have hmaps : List.map ((fun p => (p.1 - npMean xs) *
        (p.2 - npMean (List.map (fun t => t + c) ys))) ∘ Prod.map id fun t => t + c)
        (xs.zip ys) = List.map (fun p => (p.1 - npMean xs) * (p.2 - npMean ys)) (xs.zip ys) :=
      List.map_congr_left (fun p _ => by
        simp only [Function.comp_apply, Prod.map, id_eq, npMean_shift ys c hy]
        ring)
    rw [hmaps]

lemma pySlice_map (xs : List ℚ) (c : ℚ) (a b : ℕ) :
    pySlice (xs.map (fun t => t + c)) a b = (pySlice xs a b).map (fun t => t + c) := by
  simp [pySlice, List.map_drop, List.map_take]

lemma getD_map_shift (xs : List ℚ) (c : ℚ) (i : ℕ) (hi : i < xs.length) :
    (xs.map (fun t => t + c)).getD i 0 = xs.getD i 0 + c := by
  rw [List.getD_eq_getElem?_getD, List.getD_eq_getElem?_getD, List.getElem?_map,
    List.getElem?_eq_getElem hi]
  rfl

lemma set_map_shift (xs : List ℚ) (c v : ℚ) (i : ℕ) :
    (xs.map (fun t => t + c)).set i (v + c) = (xs.set i v).map (fun t => t + c) := by
  rw [List.map_set]

lemma startCond_shift (row rho : List ℚ) (c : ℚ) (i : ℕ) :
    startCond (row.map (fun t => t + c)) rho i ↔ startCond row rho i := by
  unfold startCond
  rw [pySlice_map, npVar_shift]

lemma findStart_shift (row rho : List ℚ) (c : ℚ) (idx : List ℕ) :
    findStart (row.map (fun t => t + c)) rho idx = findStart row rho idx := by
  induction idx with
  | nil => rfl
  | cons i rest ih =>
    rw [findStart, findStart]
    by_cases h : startCond row rho i
    · rw [if_pos ((startCond_shift row rho c i).mpr h), if_pos h]
    · rw [if_neg (fun hc => h ((startCond_shift row rho c i).mp hc)), if_neg h]
      exact ih

lemma puStep_snd_length (maxPD dph w : ℚ) (gw : List ℚ) (st : ℚ × List ℚ) (i : ℕ) :
    (puStep maxPD dph w gw st i).2.length = st.2.length := by
  rw [puStep]
  by_cases h : st.2.getD i 0 - (if npVar (pySlice st.2 i (i + 10)) < 225 ∧
      -5 < npCov (pySlice gw (i - 5) i) (pySlice st.2 (i - 5) i) /
        npCov (pySlice gw (i - 5) i) (pySlice gw (i - 5) i) ∧
      npCov (pySlice gw (i - 5) i) (pySlice st.2 (i - 5) i) /
        npCov (pySlice gw (i - 5) i) (pySlice gw (i - 5) i) < 20
      then st.1 + npCov (pySlice gw (i - 5) i) (pySlice st.2 (i - 5) i) /
        npCov (pySlice gw (i - 5) i) (pySlice gw (i - 5) i) * w else st.1) < maxPD
  · simp only [if_pos h, List.length_set]
  · simp only [if_neg h]

lemma puStep_shift (maxPD dph w c : ℚ) (gw : List ℚ) (ref : ℚ) (row : List ℚ) (i : ℕ)
    (hi : i < row.length) :
    puStep maxPD dph w gw (ref + c, row.map (fun t => t + c)) i =
      ((puStep maxPD dph w gw (ref, row) i).1 + c,
        (puStep maxPD dph w gw (ref, row) i).2.map (fun t => t + c)) := by
  rw [puStep, puStep]
  simp only [pySlice_map, npVar_shift, npCov_shift_right]
  by_cases h1 : npVar (pySlice row i (i + 10)) < 225 ∧
      -5 < npCov (pySlice gw (i - 5) i) (pySlice row (i - 5) i) /
        npCov (pySlice gw (i - 5) i) (pySlice gw (i - 5) i) ∧
      npCov (pySlice gw (i - 5) i) (pySlice row (i - 5) i) /
        npCov (pySlice gw (i - 5) i) (pySlice gw (i - 5) i) < 20
  · rw [if_pos h1, if_pos h1]
    have hg := getD_map_shift row c i hi
    have hcond : (row.map (fun t => t + c)).getD i 0 -
        (ref + c + npCov (pySlice gw (i - 5) i) (pySlice row (i - 5) i) /
          npCov (pySlice gw (i - 5) i) (pySlice gw (i - 5) i) * w) =
        row.getD i 0 - (ref + npCov (pySlice gw (i - 5) i) (pySlice row (i - 5) i) /
          npCov (pySlice gw (i - 5) i) (pySlice gw (i - 5) i) * w) := by
      rw [hg]; ring
    by_cases h2 : row.getD i 0 - (ref + npCov (pySlice gw (i - 5) i) (pySlice row (i - 5) i) /
        npCov (pySlice gw (i - 5) i) (pySlice gw (i - 5) i) * w) < maxPD
    · rw [if_pos (by rw [hcond]; exact h2), if_pos h2]
      refine Prod.ext (by ring) ?_
      simp only [hg]
      have : row.getD i 0 + c + dph = row.getD i 0 + dph + c := by ring
      rw [this, set_map_shift]
    · rw [if_neg (by rw [hcond]; exact h2), if_neg h2]
      exact Prod.ext (by ring) rfl
  · rw [if_neg h1, if_neg h1]
    have hg := getD_map_shift row c i hi
    have hcond : (row.map (fun t => t + c)).getD i 0 - (ref + c) = row.getD i 0 - ref := by
      rw [hg]; ring
    by_cases h2 : row.getD i 0 - ref < maxPD
    · rw [if_pos (by rw [hcond]; exact h2), if_pos h2]
      refine Prod.ext rfl ?_
      simp only [hg]
      have : row.getD i 0 + c + dph = row.getD i 0 + dph + c := by ring
      rw [this, set_map_shift]
    · rw [if_neg (by rw [hcond]; exact h2), if_neg h2]

lemma foldl_puStep_shift (maxPD dph w c : ℚ) (gw : List ℚ) :
    ∀ (idx : List ℕ) (ref : ℚ) (row : List ℚ), (∀ i ∈ idx, i < row.length) →
      idx.foldl (puStep maxPD dph w gw) (ref + c, row.map (fun t => t + c)) =
        ((idx.foldl (puStep maxPD dph w gw) (ref, row)).1 + c,
          (idx.foldl (puStep maxPD dph w gw) (ref, row)).2.map (fun t => t + c)) := by
  intro idx
  induction idx with
  | nil => intro ref row _; rfl
  | cons i rest ih =>
    intro ref row hbound
    rw [List.foldl_cons, List.foldl_cons,
      puStep_shift maxPD dph w c gw ref row i (hbound i (by simp))]
    have hlen := puStep_snd_length maxPD dph w gw (ref, row) i
    exact ih (puStep maxPD dph w gw (ref, row) i).1 (puStep maxPD dph w gw (ref, row) i).2
      (fun j hj => by rw [hlen]; exact hbound j (List.mem_cons_of_mem i hj))

/-- The 25-gate jump profile at reference level 0: phase 0 everywhere except
a single injected jump of -200 degrees at gate 15. -/
def c10base : List ℚ :=
  [0, 0, 0, 0, 0, 0, 0, 0, 0, 0, 0, 0, 0, 0, 0, -200, 0, 0, 0, 0, 0, 0, 0, 0, 0]

/-- The expected output at level 0: gate 15 folded up by +180 (to -20),
every other gate unchanged. -/
def c10fixedBase : List ℚ :=
  [0, 0, 0, 0, 0, 0, 0, 0, 0, 0, 0, 0, 0, 0, 0, -20, 0, 0, 0, 0, 0, 0, 0, 0, 0]

lemma c10_findStart_base : findStart c10base c10rho (List.range' 5 11) = some 5 := by
  norm_num [findStart, startCond, c10base, c10rho, pySlice, npVar, npMean, List.range']

lemma c10_mean_base : npMean (pySlice c10base 0 5) = 0 := by
  norm_num [npMean, pySlice, c10base]

lemma c10_fold_base :
    (List.range' 5 11).foldl (puStep (-80) 180 1 (cumsum (c10base.map (fun _ => (1 : ℚ)))))
      (0, c10base) = (0, c10fixedBase) := by
  norm_num [puStep, pySlice, npVar, npMean, npCov, cumsum, cumsumFrom, c10base,
    c10fixedBase, List.range']

set_option maxHeartbeats 2000000 in
/-- C10 (amended): the single-fold correction holds only for jump gates the
tracking loop actually visits, i.e. inside [pt_start, num_gate - 9).  For
every reference level L, on the stable 25-gate trace holding phase L at
every gate except a single injected jump of -200 degrees at gate 15 - a
gate inside the scanned range - PhaseUnfolding with max_phaseDiff = -80 and
dphase = 180 adds exactly one fold increment of +180 at that gate (giving
L - 20) and leaves every other gate's phase unchanged.  The proof combines
the translation equivariance of the unfolding step with the evaluated run
at level 0.  (A jump at a gate the loop never reaches is left uncorrected:
see the counterexample below for gate 20.) -/
theorem C10_single_jump_single_fold (L : ℚ) :
    PhaseUnfolding [c10base.map (fun t => t + L)] [c10rho] [1] (-80) 180 =
      [c10fixedBase.map (fun t => t + L)] := by
  have hlen : (c10base.map (fun t => t + L)).length = 25 := by
    rw [List.length_map]; rfl
  have hgw : (c10base.map (fun t => t + L)).map (fun _ => (1 : ℚ)) =
      c10base.map (fun _ => (1 : ℚ)) := by
    rw [List.map_map]
    rfl
  have e1 : (25 : ℕ) - 14 = 11 := rfl
  have e2 : (5 : ℕ) - 5 = 0 := rfl
  have e3 : (25 : ℕ) - 9 - 5 = 11 := rfl
  simp only [PhaseUnfolding, puRadials, puRadial, hlen, hgw, e1]
  rw [findStart_shift, c10_findStart_base]
  dsimp only
  rw [e2, e3, pySlice_map c10base L 0 5,
    npMean_shift (pySlice c10base 0 5) L (by simp [pySlice, c10base]), c10_mean_base]
  rw [foldl_puStep_shift (-80) 180 1 L (cumsum (c10base.map (fun _ => (1 : ℚ))))
    (List.range' 5 11) 0 c10base (by decide), c10_fold_base]

/-- A stable 25-gate trace at reference phase 100 whose single -200 degree
jump sits at gate 20, at or beyond num_gate - 9 = 16. -/
def c10late : List ℚ :=
  [100, 100, 100, 100, 100, 100, 100, 100, 100, 100, 100, 100, 100, 100, 100,
    100, 100, 100, 100, 100, -100, 100, 100, 100, 100]

set_option maxHeartbeats 2000000 in
/-- C10 counterexample: the claim quantifies over every stable reference
trace with a single -200 degree jump at one gate, but the tracking loop of
lines 156-165 only runs over range(pt_start, num_gate - 9).  On this trace
the reference locks at gate 5 and the loop stops after gate 15, so the jump
at gate 20 is never visited: the output equals the input at every gate and
no fold increment is added anywhere - gate 20 still holds -100 instead of
the claimed -100 + 180. -/
theorem C10_counterexample :
    PhaseUnfolding [c10late] [c10rho] [1] (-80) 180 = [c10late] ∧
      c10late.getD 20 0 = -100 := by
  constructor
  · norm_num [PhaseUnfolding, puRadials, puRadial, findStart, startCond, puStep,
      pySlice, npMean, npVar, npCov, cumsum, cumsumFrom, c10late, c10rho, List.range']
  · norm_num [c10late]
